import Mathlib

/-!
Verification of the unique-path / unique-variable-name resolution core of
go-remote-embed (src/main.go), shallowly embedded over `List Char` (one
entry per rune of a Go string). Paths use the Unix separator, so
`filepath.ToSlash` is the identity and `filepath.Separator` is `'/'`.
-/

set_option maxHeartbeats 2000000

/-- A Go string, modelled rune by rune. -/
abbrev GoStr := List Char

/-- Go `strings.Split(s, sep)` for a one-rune separator: `[""]` on the empty
string, and a trailing empty fragment when `s` ends with `sep`. -/
def splitChar (sep : Char) : GoStr → List GoStr
  | [] => [[]]
  | c :: rest =>
    if c = sep then [] :: splitChar sep rest
    else
      match splitChar sep rest with
      | [] => [[c]]
      | t :: ts => (c :: t) :: ts

/-- Go `strings.Join(xs, sep)` for a one-rune separator. -/
def joinChar (sep : Char) : List GoStr → GoStr
  | [] => []
  | [x] => x
  | x :: y :: ys => x ++ sep :: joinChar sep (y :: ys)

/-- Go `unicode.IsSpace`, restricted to the runes above 0x7F (the ASCII
range is handled separately by `goIsSeparator`); this is exactly the
non-ASCII part of the Unicode White_Space set. -/
def goIsHighSpace (c : Char) : Bool :=
  let n := c.toNat
  n = 0x85 || n = 0xA0 || n = 0x1680 || (0x2000 ≤ n && n ≤ 0x200A) ||
    n = 0x2028 || n = 0x2029 || n = 0x202F || n = 0x205F || n = 0x3000

/-- Go `strings.isSeparator`, the word-boundary test used by
`strings.Title`: ASCII alphanumerics and underscore are not separators,
every other ASCII rune is; above ASCII, Go treats letters and digits as
non-separators and otherwise falls back to `unicode.IsSpace`, which
coincides with `goIsHighSpace` (letters and digits are never white space). -/
def goIsSeparator (c : Char) : Bool :=
  if c.toNat ≤ 0x7F then
    !(('0' ≤ c && c ≤ '9') || ('a' ≤ c && c ≤ 'z') || ('A' ≤ c && c ≤ 'Z') || c = '_')
  else
    goIsHighSpace c

/-- Go `unicode.ToTitle` restricted to ASCII (maps a lowercase ASCII letter
to its uppercase form and keeps everything else); runes above ASCII are kept
unchanged in this model. -/
def goToTitle (c : Char) : Char := c.toUpper

/-- The rune-mapping loop of Go `strings.Title`: title-case a rune exactly
when the previous rune is a word separator, starting as if after a space. -/
def goTitleAux (prev : Char) : GoStr → GoStr
  | [] => []
  | c :: rest => (if goIsSeparator prev then goToTitle c else c) :: goTitleAux c rest

/-- Go `strings.Title`. -/
def goTitle (s : GoStr) : GoStr := goTitleAux ' ' s

/-- Go `strings.ReplaceAll(s, old, new)` for one-rune arguments. -/
def replaceAllChar (a b : Char) (s : GoStr) : GoStr :=
  s.map (fun c => if c = a then b else c)

/-- Go `filepath.Ext`: the suffix starting at the final dot in the final
slash-separated element; empty when that element has no dot. -/
def goExt : GoStr → GoStr
  | [] => []
  | c :: rest =>
    let e := goExt rest
    if e ≠ [] then e
    else if c = '.' && rest.all (fun d => !(d = '/')) then c :: rest
    else []

/-- Go `strings.TrimSuffix`. -/
def goTrimSuffix (s suf : GoStr) : GoStr :=
  if suf.isSuffixOf s then s.take (s.length - suf.length) else s

/-- The idiom `strings.TrimSuffix(s, filepath.Ext(s))` used throughout
src/main.go to drop a filename's extension. -/
def stripExt (s : GoStr) : GoStr := goTrimSuffix s (goExt s)

/-- Go `filepath.Base` on a slash-separated path: `"."` for the empty path,
trailing slashes dropped, then the part after the last remaining slash,
or `"/"` when only slashes remain. -/
def goBase (p : GoStr) : GoStr :=
  if p = [] then ['.']
  else
    let q := (p.reverse.dropWhile (fun c => c = '/')).reverse
    let r := (q.reverse.takeWhile (fun c => !(c = '/'))).reverse
    if r = [] then ['/'] else r

/-- The separator test of `toPascalCase` in src/main.go:
`r == '-' || r == '_' || r == '.' || r == '/'`. -/
def isPascalSep (c : Char) : Bool :=
  c = '-' || c = '_' || c = '.' || c = '/'

/-- The fragment-collecting loop of `toPascalCase` (src/main.go:320-334):
accumulate runes into `current`, flush `current` into the part list at each
separator when non-empty, and flush the final `current` after the loop. -/
def pascalPartsAux (current : GoStr) : GoStr → List GoStr
  | [] => if current = [] then [] else [current]
  | c :: rest =>
    if isPascalSep c then
      if current = [] then pascalPartsAux [] rest
      else current :: pascalPartsAux [] rest
    else pascalPartsAux (current ++ [c]) rest

/-- `toPascalCase` (src/main.go:319-340): split on the four separators,
discard empty fragments, and concatenate `strings.Title(strings.ToLower(part))`
over the fragments. -/
def toPascalCase (s : GoStr) : GoStr :=
  ((pascalPartsAux [] s).map (fun part => goTitle (part.map Char.toLower))).flatten

/-- The Go string literal "snake" as a rune list. -/
def snakeStr : GoStr := "snake".data

/-- `toGoVarName` (src/main.go:307-316): strip the extension, then either
replace dashes and dots with underscores and apply `strings.Title`
(naming "snake"), or fall through to `toPascalCase`. -/
def toGoVarName (name naming : GoStr) : GoStr :=
  let n := stripExt name
  if naming = snakeStr then goTitle (replaceAllChar '.' '_' (replaceAllChar '-' '_' n))
  else toPascalCase n

/-- The two fields of `fileInfo` (src/main.go:343-348) read by
`resolveUniquePaths`; `originalURL` and `expandedURL` are never consulted
by the resolution core and are omitted. -/
structure FileInfo where
  sourcePath : GoStr
  shortName : GoStr
deriving Repr, DecidableEq, Inhabited

/-- Number of slash-separated segments of a path (always at least 1). -/
def numSegs (s : GoStr) : Nat := (splitChar '/' s).length

/-- The depth-`d` candidate of `resolveUniquePaths` (src/main.go:370-375):
the rightmost `d` segments of `sourcePath` joined by `'/'`, the whole path
when `d` exceeds the segment count. -/
def pathCandidate (s : GoStr) (d : Nat) : GoStr :=
  let parts := splitChar '/' s
  joinChar '/' (parts.drop (parts.length - d))

/-- The index group of `nameCount[shortName]` (src/main.go:356-359): all
input positions whose `shortName` equals `sn`. -/
def shortGroup (files : List FileInfo) (sn : GoStr) : List Nat :=
  (List.range files.length).filter (fun j => decide ((files.getD j default).shortName = sn))

/-- The uniqueness check of src/main.go:378-393: the depth-`d` candidate of
member `i` differs from the depth-`d` candidate of every other member of
its `shortName` group. -/
def pathUniqueAtB (files : List FileInfo) (i : Nat) (f : FileInfo) (d : Nat) : Bool :=
  (shortGroup files f.shortName).all (fun j =>
    decide (j = i) ||
      decide (pathCandidate (files.getD j default).sourcePath d ≠ pathCandidate f.sourcePath d))

/-- The body of the per-index loop of `resolveUniquePaths`
(src/main.go:361-405): a globally unique `shortName` is returned directly;
otherwise the first depth from 1 to the member's segment count whose
candidate is unique in the group wins, and the full `sourcePath` is the
fallback when no depth wins or the winning candidate is the empty string
(the Go code detects success by `result[i] == ""`). -/
def resolvePathAt (files : List FileInfo) (i : Nat) : GoStr :=
  if (shortGroup files (files.getD i default).shortName).length = 1 then
    (files.getD i default).shortName
  else
    match (List.range' 1 (numSegs (files.getD i default).sourcePath)).find?
        (pathUniqueAtB files i (files.getD i default)) with
    | some d =>
      if pathCandidate (files.getD i default).sourcePath d = [] then
        (files.getD i default).sourcePath
      else pathCandidate (files.getD i default).sourcePath d
    | none => (files.getD i default).sourcePath

/-- `resolveUniquePaths` (src/main.go:352-409). -/
def resolveUniquePaths (files : List FileInfo) : List GoStr :=
  (List.range files.length).map (resolvePathAt files)

/-- The base variable name of a path (src/main.go:418-421):
`toGoVarName(filepath.Base(p), naming)`. -/
def baseVarName (naming p : GoStr) : GoStr := toGoVarName (goBase p) naming

/-- The index group of `nameToIndices[varName]` (src/main.go:416-423): all
input positions whose base variable name equals `v`. -/
def baseGroup (paths : List GoStr) (naming v : GoStr) : List Nat :=
  (List.range paths.length).filter (fun j => decide (baseVarName naming (paths.getD j []) = v))

/-- Candidate synthesis of `resolveUniqueVarNames` from the rightmost
segments with the last one extension-stripped (src/main.go:449-468):
snake joins `strings.Title` of the leading segments and the
underscore-rewritten last segment with underscores (`strings.Title` of the
last segment alone when there are no leading segments), pascal runs
`toPascalCase` over the slash-joined segments. -/
def candidateFromParts (naming : GoStr) (rel : List GoStr) : GoStr :=
  if naming = snakeStr then
    let dirParts := rel.dropLast.map goTitle
    let basePart := replaceAllChar '.' '_' (replaceAllChar '-' '_' (rel.getLast?.getD []))
    if dirParts = [] then goTitle basePart
    else joinChar '_' dirParts ++ '_' :: basePart
  else toPascalCase (joinChar '/' rel)

/-- The depth-`d` candidate of `resolveUniqueVarNames` (src/main.go:436-468):
take the rightmost `d` segments, strip the extension from only the last
segment, and synthesize under the convention. -/
def candidateName (naming p : GoStr) (d : Nat) : GoStr :=
  let parts := splitChar '/' p
  let rel := parts.drop (parts.length - d)
  candidateFromParts naming (rel.dropLast ++ [stripExt (rel.getLast?.getD [])])

/-- The uniqueness check of src/main.go:470-509: member `i`'s depth-`d`
candidate differs from every other member's depth-`d` candidate within its
base-name group. -/
def nameUniqueAtB (paths : List GoStr) (naming : GoStr) (i : Nat) (p : GoStr) (d : Nat) : Bool :=
  (baseGroup paths naming (baseVarName naming p)).all (fun j =>
    decide (j = i) ||
      decide (candidateName naming (paths.getD j []) d ≠ candidateName naming p d))

/-- The body of the per-index loop of `resolveUniqueVarNames`
(src/main.go:428-519): keep the base name for singleton groups, otherwise
accept the candidate of the first depth from 2 to the member's segment
count that is unique in the group, keeping the base name when no depth is. -/
def resolveNameAt (paths : List GoStr) (naming : GoStr) (i : Nat) : GoStr :=
  if 1 < (baseGroup paths naming (baseVarName naming (paths.getD i []))).length then
    match (List.range' 2 (numSegs (paths.getD i []) - 1)).find?
        (nameUniqueAtB paths naming i (paths.getD i [])) with
    | some d => candidateName naming (paths.getD i []) d
    | none => baseVarName naming (paths.getD i [])
  else baseVarName naming (paths.getD i [])

/-- `resolveUniqueVarNames` (src/main.go:413-522). -/
def resolveUniqueVarNames (paths : List GoStr) (naming : GoStr) : List GoStr :=
  (List.range paths.length).map (resolveNameAt paths naming)

/-- The final slash-separated segment of a path. -/
def lastSeg (s : GoStr) : GoStr := ((splitChar '/' s).getLast?).getD []

/-- The slash-separated segments of a path with the extension stripped from
the final one; two paths with equal `strippedSegs` are indistinguishable at
every depth of `resolveUniqueVarNames`. -/
def strippedSegs (p : GoStr) : List GoStr :=
  let parts := splitChar '/' p
  parts.dropLast ++ [stripExt (parts.getLast?.getD [])]

/-- Splitting on a class of separator runes, keeping empty fragments
(general splitter used to state the spec's description of WordCase). -/
def splitOnSeps (isSep : Char → Bool) : GoStr → List GoStr
  | [] => [[]]
  | c :: rest =>
    if isSep c then [] :: splitOnSeps isSep rest
    else
      match splitOnSeps isSep rest with
      | [] => [[c]]
      | t :: ts => (c :: t) :: ts

/-- Capitalize the first rune of a string, keep the rest. -/
def capFirst : GoStr → GoStr
  | [] => []
  | c :: rest => goToTitle c :: rest

/-- Spec 4.1 WordCase, stated from the spec's words: split the input on any
of the four separators, discard empty fragments, lowercase each fragment
then capitalize its first letter, concatenate with no separator. -/
def wordCaseSpec (s : GoStr) : GoStr :=
  (((splitOnSeps isPascalSep s).filter (fun frag => !frag.isEmpty)).map
    (fun frag => capFirst (frag.map Char.toLower))).flatten

/-- Spec 4.1 SeparatedCase, stated from the spec's words: strip the trailing
extension, replace each dash and dot separator with an underscore, then
capitalize the first letter of the whole resulting string only. -/
def sepCaseSpec (s : GoStr) : GoStr :=
  capFirst ((stripExt s).map (fun c => if c = '-' then '_' else if c = '.' then '_' else c))

/-- Propositional form of `pathUniqueAtB`: member `i`'s depth-`d` candidate
differs from the same-depth candidate of every other input sharing its
`shortName`. -/
def PathUniqueAt (files : List FileInfo) (i : Nat) (f : FileInfo) (d : Nat) : Prop :=
  ∀ j, j < files.length → j ≠ i → (files.getD j default).shortName = f.shortName →
    pathCandidate (files.getD j default).sourcePath d ≠ pathCandidate f.sourcePath d

instance (files : List FileInfo) (i : Nat) (f : FileInfo) (d : Nat) :
    Decidable (PathUniqueAt files i f d) := by
  unfold PathUniqueAt; infer_instance

/-- Propositional form of `nameUniqueAtB`: member `i`'s depth-`d` candidate
differs from the same-depth candidate of every other input sharing its base
variable name. -/
def NameUniqueAt (paths : List GoStr) (naming : GoStr) (i : Nat) (p : GoStr) (d : Nat) : Prop :=
  ∀ j, j < paths.length → j ≠ i →
    baseVarName naming (paths.getD j []) = baseVarName naming p →
    candidateName naming (paths.getD j []) d ≠ candidateName naming p d

instance (paths : List GoStr) (naming : GoStr) (i : Nat) (p : GoStr) (d : Nat) :
    Decidable (NameUniqueAt paths naming i p d) := by
  unfold NameUniqueAt; infer_instance

/-! ### Helper lemmas -/

theorem find?_range'_eq_some (p : Nat → Bool) (d : Nat) :
    ∀ s n, s ≤ d → d < s + n → p d = true →
      (∀ e, s ≤ e → e < d → p e = false) →
      (List.range' s n).find? p = some d := by
  intro s n
  induction n generalizing s with
  | zero => intro h1 h2; omega
  | succ n ih =>
    intro h1 h2 hp hmin
    rw [List.range'_succ]
    by_cases hds : d = s
    · subst hds
      simp [List.find?_cons, hp]
    · have hs : p s = false := hmin s le_rfl (by omega)
      rw [List.find?_cons, hs]
      exact ih (s + 1) (by omega) (by omega) hp (fun e he1 he2 => hmin e (by omega) he2)

theorem filter_range_eq_singleton (p : Nat → Bool) :
    ∀ n i, i < n → (∀ j, j < n → (p j = true ↔ j = i)) →
      (List.range n).filter p = [i] := by
  intro n
  induction n with
  | zero => intro i hi; omega
  | succ n ih =>
    intro i hi hp
    rw [List.range_succ, List.filter_append]
    by_cases hin : i = n
    · subst hin
      have h1 : (List.range i).filter p = [] := by
        rw [List.filter_eq_nil_iff]
        intro a ha
        have han : a < i := List.mem_range.mp ha
        intro hpa
        have := (hp a (by omega)).mp hpa
        omega
      have h2 : p i = true := (hp i (by omega)).mpr rfl
      simp [h1, h2]
    · have h2 : p n = false := by
        by_cases hpn : p n = true
        · exact absurd ((hp n (by omega)).mp hpn) (fun h => hin h.symm)
        · simpa using hpn
      have h1 : (List.range n).filter p = [i] :=
        ih i (by omega) (fun j hj => hp j (by omega))
      simp [h1, h2]

theorem two_mem_le_length {α : Type} {l : List α} {i j : α}
    (hi : i ∈ l) (hj : j ∈ l) (hij : i ≠ j) : 2 ≤ l.length := by
  match l with
  | [] => cases hi
  | [a] =>
    have h1 : i = a := by simpa using hi
    have h2 : j = a := by simpa using hj
    exact absurd (h1.trans h2.symm) hij
  | a :: b :: t => simp only [List.length_cons]; omega

theorem map_range_getD {α : Type} (n : Nat) (g : Nat → α) (i : Nat) (hi : i < n) (a : α) :
    ((List.range n).map g).getD i a = g i := by
  rw [List.getD_eq_getElem?_getD, List.getElem?_map, List.getElem?_range hi]
  rfl

theorem splitChar_ne_nil (sep : Char) (s : GoStr) : splitChar sep s ≠ [] := by
  match s with
  | [] => simp [splitChar]
  | c :: rest =>
    rw [splitChar]
    by_cases hc : c = sep
    · simp [hc]
    · rw [if_neg hc]
      match h : splitChar sep rest with
      | [] => simp
      | t :: ts => simp

theorem joinChar_cons_ne_nil (sep : Char) (a : GoStr) (rest : List GoStr)
    (h : rest ≠ []) : joinChar sep (a :: rest) ≠ [] := by
  match rest with
  | [] => exact absurd rfl h
  | b :: l =>
    show a ++ sep :: joinChar sep (b :: l) ≠ []
    simp

theorem joinChar_concat_ne_nil (sep : Char) (e : List GoStr) (x : GoStr)
    (hx : x ≠ []) : joinChar sep (e ++ [x]) ≠ [] := by
  match e with
  | [] => simpa [joinChar]
  | a :: e' =>
    rw [List.cons_append]
    exact joinChar_cons_ne_nil sep a (e' ++ [x]) (by simp)

theorem splitChar_of_not_mem (sep : Char) (s : GoStr)
    (h : ∀ c ∈ s, ¬ c = sep) : splitChar sep s = [s] := by
  induction s with
  | nil => rfl
  | cons c rest ih =>
    rw [splitChar, if_neg (h c (by simp))]
    rw [ih (fun d hd => h d (by simp [hd]))]

theorem lastSeg_cons_ne (c : Char) (rest : GoStr)
    (h : lastSeg rest ≠ []) : lastSeg (c :: rest) ≠ [] := by
  unfold lastSeg at *
  rw [splitChar]
  by_cases hc : c = '/'
  · rw [if_pos hc]
    match hs : splitChar '/' rest with
    | [] => exact absurd hs (splitChar_ne_nil '/' rest)
    | t :: ts =>
      rw [hs] at h
      rw [List.getLast?_cons_cons]
      exact h
  · rw [if_neg hc]
    match hs : splitChar '/' rest with
    | [] => exact absurd hs (splitChar_ne_nil '/' rest)
    | [t] =>
      rw [hs] at h
      simp only [List.getLast?_singleton, Option.getD_some] at h ⊢
      simp
    | t :: u :: ts =>
      rw [hs] at h
      rw [List.getLast?_cons_cons] at h ⊢
      exact h

theorem lastSeg_ne_of_suffix (t : GoStr) :
    ∀ s, t ≠ [] → '/' ∉ t → t <:+ s → lastSeg s ≠ [] := by
  intro s
  induction s with
  | nil =>
    intro h1 _ h3
    exact absurd (List.suffix_nil.mp h3) h1
  | cons c rest ih =>
    intro h1 h2 h3
    rcases List.suffix_cons_iff.mp h3 with h | h
    · have hnosep : ∀ d ∈ c :: rest, ¬ d = '/' := by
        intro d hd hdeq
        subst hdeq
        rw [← h] at hd
        exact h2 hd
      unfold lastSeg
      rw [splitChar_of_not_mem '/' (c :: rest) hnosep]
      simp only [List.getLast?_singleton, Option.getD_some]
      simp
    · exact lastSeg_cons_ne c rest (ih h1 h2 h)

theorem eq_dropLast_concat_getLastD {α : Type} (a : α) :
    ∀ l : List α, l ≠ [] → l = l.dropLast ++ [l.getLast?.getD a] := by
  intro l
  induction l with
  | nil => intro h; exact absurd rfl h
  | cons x t ih =>
    intro _
    match t with
    | [] => rfl
    | y :: t' =>
      have := ih (by simp)
      rw [List.getLast?_cons_cons]
      calc x :: y :: t' = x :: ((y :: t').dropLast ++ [(y :: t').getLast?.getD a]) := by
            rw [← this]
        _ = (x :: y :: t').dropLast ++ [(y :: t').getLast?.getD a] := by
            simp [List.dropLast]

theorem pathCandidate_ne_nil (s : GoStr) (d : Nat) (hd : 1 ≤ d)
    (h : lastSeg s ≠ []) : pathCandidate s d ≠ [] := by
  unfold lastSeg at h
  show joinChar '/' (List.drop ((splitChar '/' s).length - d) (splitChar '/' s)) ≠ []
  set L := splitChar '/' s with hL
  have hne : L ≠ [] := by rw [hL]; exact splitChar_ne_nil '/' s
  set x := L.getLast?.getD [] with hx
  set dl := L.dropLast with hdl
  have hrepr : L = dl ++ [x] := eq_dropLast_concat_getLastD [] L hne
  have hlen : L.length = dl.length + 1 := by
    rw [hdl, List.length_dropLast]
    have := List.length_pos.mpr hne
    omega
  set k := L.length - d with hkdef
  have hk : k ≤ dl.length := by omega
  have e1 : List.drop k L = List.drop k dl ++ [x] := by
    rw [hrepr, List.drop_append_of_le_length hk]
  rw [e1]
  exact joinChar_concat_ne_nil '/' _ x h

theorem pathUniqueAtB_iff (files : List FileInfo) (i : Nat) (f : FileInfo) (d : Nat) :
    pathUniqueAtB files i f d = true ↔ PathUniqueAt files i f d := by
  unfold pathUniqueAtB PathUniqueAt shortGroup
  rw [List.all_eq_true]
  constructor
  · intro h j hj hji hsn
    have hmem : j ∈ (List.range files.length).filter
        (fun j => decide ((files.getD j default).shortName = f.shortName)) :=
      List.mem_filter.mpr ⟨List.mem_range.mpr hj, decide_eq_true hsn⟩
    have h2 := h j hmem
    rw [Bool.or_eq_true] at h2
    rcases h2 with h2 | h2
    · exact absurd (of_decide_eq_true h2) hji
    · exact of_decide_eq_true h2
  · intro h j hmem
    obtain ⟨hr, hsn⟩ := List.mem_filter.mp hmem
    rw [Bool.or_eq_true]
    by_cases hji : j = i
    · exact Or.inl (decide_eq_true hji)
    · exact Or.inr (decide_eq_true (h j (List.mem_range.mp hr) hji (of_decide_eq_true hsn)))

theorem nameUniqueAtB_iff (paths : List GoStr) (naming : GoStr) (i : Nat) (p : GoStr) (d : Nat) :
    nameUniqueAtB paths naming i p d = true ↔ NameUniqueAt paths naming i p d := by
  unfold nameUniqueAtB NameUniqueAt baseGroup
  rw [List.all_eq_true]
  constructor
  · intro h j hj hji hb
    have hmem : j ∈ (List.range paths.length).filter
        (fun j => decide (baseVarName naming (paths.getD j []) = baseVarName naming p)) :=
      List.mem_filter.mpr ⟨List.mem_range.mpr hj, decide_eq_true hb⟩
    have h2 := h j hmem
    rw [Bool.or_eq_true] at h2
    rcases h2 with h2 | h2
    · exact absurd (of_decide_eq_true h2) hji
    · exact of_decide_eq_true h2
  · intro h j hmem
    obtain ⟨hr, hb⟩ := List.mem_filter.mp hmem
    rw [Bool.or_eq_true]
    by_cases hji : j = i
    · exact Or.inl (decide_eq_true hji)
    · exact Or.inr (decide_eq_true (h j (List.mem_range.mp hr) hji (of_decide_eq_true hb)))

theorem resolveUniquePaths_getD (files : List FileInfo) (i : Nat) (hi : i < files.length) :
    (resolveUniquePaths files).getD i [] = resolvePathAt files i := by
  unfold resolveUniquePaths
  exact map_range_getD files.length (resolvePathAt files) i hi []

theorem resolveUniqueVarNames_getD (paths : List GoStr) (naming : GoStr) (i : Nat)
    (hi : i < paths.length) :
    (resolveUniqueVarNames paths naming).getD i [] = resolveNameAt paths naming i := by
  unfold resolveUniqueVarNames
  exact map_range_getD paths.length (resolveNameAt paths naming) i hi []

theorem strippedSegs_dropLast_eq (p q : GoStr) (h : strippedSegs p = strippedSegs q) :
    (splitChar '/' p).dropLast = (splitChar '/' q).dropLast := by
  unfold strippedSegs at h
  have h2 := congrArg List.dropLast h
  rwa [List.dropLast_concat, List.dropLast_concat] at h2

theorem strippedSegs_last_eq (p q : GoStr) (h : strippedSegs p = strippedSegs q) :
    stripExt ((splitChar '/' p).getLast?.getD []) =
      stripExt ((splitChar '/' q).getLast?.getD []) := by
  unfold strippedSegs at h
  have h2 := congrArg List.getLast? h
  rw [List.getLast?_concat, List.getLast?_concat] at h2
  exact Option.some.inj h2

theorem numSegs_eq_of_strippedSegs (p q : GoStr) (h : strippedSegs p = strippedSegs q) :
    numSegs p = numSegs q := by
  unfold numSegs
  have h1 := strippedSegs_dropLast_eq p q h
  have h2 := congrArg List.length h1
  rw [List.length_dropLast, List.length_dropLast] at h2
  have hp := List.length_pos.mpr (splitChar_ne_nil '/' p)
  have hq := List.length_pos.mpr (splitChar_ne_nil '/' q)
  omega

theorem candidateName_congr (naming p q : GoStr) (h : strippedSegs p = strippedSegs q)
    (d : Nat) (hd : 1 ≤ d) : candidateName naming p d = candidateName naming q d := by
  show candidateFromParts naming
      ((List.drop ((splitChar '/' p).length - d) (splitChar '/' p)).dropLast ++
        [stripExt ((List.drop ((splitChar '/' p).length - d) (splitChar '/' p)).getLast?.getD [])]) =
    candidateFromParts naming
      ((List.drop ((splitChar '/' q).length - d) (splitChar '/' q)).dropLast ++
        [stripExt ((List.drop ((splitChar '/' q).length - d) (splitChar '/' q)).getLast?.getD [])])
  have hdl := strippedSegs_dropLast_eq p q h
  have hlast := strippedSegs_last_eq p q h
  have hns := numSegs_eq_of_strippedSegs p q h
  unfold numSegs at hns
  set P := splitChar '/' p with hP
  set Q := splitChar '/' q with hQ
  have hPne : P ≠ [] := by rw [hP]; exact splitChar_ne_nil '/' p
  have hQne : Q ≠ [] := by rw [hQ]; exact splitChar_ne_nil '/' q
  set xp := P.getLast?.getD [] with hxp
  set xq := Q.getLast?.getD [] with hxq
  set dl := P.dropLast with hdldef
  have hreprP : P = dl ++ [xp] := eq_dropLast_concat_getLastD [] P hPne
  have hreprQ : Q = dl ++ [xq] := by
    rw [hdl]
    exact eq_dropLast_concat_getLastD [] Q hQne
  have hlenP : P.length = dl.length + 1 := by
    rw [hdldef, List.length_dropLast]
    have := List.length_pos.mpr hPne
    omega
  set k := P.length - d with hkdef
  have hkq : Q.length - d = k := by omega
  have hk : k ≤ dl.length := by omega
  have e1 : List.drop k P = List.drop k dl ++ [xp] := by
    rw [hreprP, List.drop_append_of_le_length hk]
  have e2 : List.drop (Q.length - d) Q = List.drop k dl ++ [xq] := by
    rw [hkq, hreprQ, List.drop_append_of_le_length hk]
  rw [e1, e2, List.dropLast_concat, List.dropLast_concat,
    List.getLast?_concat, List.getLast?_concat]
  simp only [Option.getD_some]
  rw [hlast]

theorem baseVarName_congr (naming p q : GoStr) (h : strippedSegs p = strippedSegs q)
    (hp : goBase p = lastSeg p) (hq : goBase q = lastSeg q) :
    baseVarName naming p = baseVarName naming q := by
  unfold baseVarName toGoVarName
  rw [hp, hq]
  unfold lastSeg
  rw [strippedSegs_last_eq p q h]

theorem goTitleAux_of_not_sep :
    ∀ l : GoStr, (∀ c ∈ l, goIsSeparator c = false) →
      ∀ p : Char, goIsSeparator p = false → goTitleAux p l = l := by
  intro l
  induction l with
  | nil => intro _ p _; rfl
  | cons c rest ih =>
    intro h p hp
    rw [goTitleAux, if_neg (by simp [hp])]
    rw [ih (fun d hd => h d (by simp [hd])) c (h c (by simp))]

theorem goTitle_eq_capFirst (l : GoStr) (h : ∀ c ∈ l, goIsSeparator c = false) :
    goTitle l = capFirst l := by
  match l with
  | [] => rfl
  | c :: rest =>
    unfold goTitle capFirst
    rw [goTitleAux, if_pos (by decide : goIsSeparator ' ' = true)]
    rw [goTitleAux_of_not_sep rest (fun d hd => h d (by simp [hd])) c (h c (by simp))]

theorem splitOnSeps_ne_nil (isSep : Char → Bool) (s : GoStr) : splitOnSeps isSep s ≠ [] := by
  match s with
  | [] => simp [splitOnSeps]
  | c :: rest =>
    rw [splitOnSeps]
    by_cases hc : isSep c = true
    · simp [hc]
    · rw [if_neg hc]
      match h : splitOnSeps isSep rest with
      | [] => simp
      | t :: ts => simp

theorem splitOnSeps_subset (isSep : Char → Bool) :
    ∀ s frag, frag ∈ splitOnSeps isSep s → ∀ c ∈ frag, c ∈ s := by
  intro s
  induction s with
  | nil =>
    intro frag hf c hc
    simp only [splitOnSeps, List.mem_singleton] at hf
    subst hf
    cases hc
  | cons a rest ih =>
    intro frag hf c hc
    rw [splitOnSeps] at hf
    by_cases ha : isSep a = true
    · rw [if_pos ha] at hf
      rcases List.mem_cons.mp hf with h | h
      · subst h; cases hc
      · exact List.mem_cons_of_mem a (ih frag h c hc)
    · rw [if_neg ha] at hf
      match hsp : splitOnSeps isSep rest with
      | [] => exact absurd hsp (splitOnSeps_ne_nil isSep rest)
      | t :: ts =>
        rw [hsp] at hf
        rcases List.mem_cons.mp hf with h | h
        · subst h
          rcases List.mem_cons.mp hc with h2 | h2
          · subst h2; exact List.mem_cons_self c rest
          · have ht : t ∈ splitOnSeps isSep rest := by
              rw [hsp]; exact List.mem_cons_self t ts
            exact List.mem_cons_of_mem a (ih t ht c h2)
        · have hfr : frag ∈ splitOnSeps isSep rest := by
            rw [hsp]; exact List.mem_cons_of_mem t h
          exact List.mem_cons_of_mem a (ih frag hfr c hc)

theorem splitOnSeps_not_sep (isSep : Char → Bool) :
    ∀ s frag, frag ∈ splitOnSeps isSep s → ∀ c ∈ frag, isSep c = false := by
  intro s
  induction s with
  | nil =>
    intro frag hf c hc
    simp only [splitOnSeps, List.mem_singleton] at hf
    subst hf
    cases hc
  | cons a rest ih =>
    intro frag hf c hc
    rw [splitOnSeps] at hf
    by_cases ha : isSep a = true
    · rw [if_pos ha] at hf
      rcases List.mem_cons.mp hf with h | h
      · subst h; cases hc
      · exact ih frag h c hc
    · rw [if_neg ha] at hf
      match hsp : splitOnSeps isSep rest with
      | [] => exact absurd hsp (splitOnSeps_ne_nil isSep rest)
      | t :: ts =>
        rw [hsp] at hf
        rcases List.mem_cons.mp hf with h | h
        · subst h
          rcases List.mem_cons.mp hc with h2 | h2
          · subst h2; simpa using ha
          · have ht : t ∈ splitOnSeps isSep rest := by
              rw [hsp]; exact List.mem_cons_self t ts
            exact ih t ht c h2
        · have hfr : frag ∈ splitOnSeps isSep rest := by
            rw [hsp]; exact List.mem_cons_of_mem t h
          exact ih frag hfr c hc

theorem pascalPartsAux_eq :
    ∀ (s : GoStr) (cur : GoStr),
      pascalPartsAux cur s =
        (match splitOnSeps isPascalSep s with
          | [] => []
          | t :: ts => (cur ++ t) :: ts).filter (fun l => !l.isEmpty) := by
  intro s
  induction s with
  | nil =>
    intro cur
    show pascalPartsAux cur [] = _
    simp only [splitOnSeps]
    rw [pascalPartsAux, List.append_nil]
    by_cases hc : cur = []
    · subst hc; simp
    · rw [if_neg hc]
      have hne : cur.isEmpty = false := by
        cases cur with
        | nil => exact absurd rfl hc
        | cons a t => rfl
      simp [List.filter, hne]
  | cons a rest ih =>
    intro cur
    rw [pascalPartsAux, splitOnSeps]
    by_cases ha : isPascalSep a = true
    · rw [if_pos ha, if_pos ha]
      have hrest := ih []
      have hsimp : (match splitOnSeps isPascalSep rest with
          | [] => ([] : List GoStr)
          | t :: ts => ([] ++ t) :: ts) = splitOnSeps isPascalSep rest := by
        match hsp : splitOnSeps isPascalSep rest with
        | [] => exact absurd hsp (splitOnSeps_ne_nil isPascalSep rest)
        | t :: ts => simp
      rw [hsimp] at hrest
      by_cases hc : cur = []
      · subst hc
        rw [if_pos rfl, hrest]
        simp [List.filter]
      · rw [if_neg hc, hrest]
        have hne : cur.isEmpty = false := by
          cases cur with
          | nil => exact absurd rfl hc
          | cons x t => rfl
        simp [List.filter, hne]
    · rw [if_neg ha, if_neg ha, ih (cur ++ [a])]
      match hsp : splitOnSeps isPascalSep rest with
      | [] => exact absurd hsp (splitOnSeps_ne_nil isPascalSep rest)
      | t :: ts => simp

theorem pascalPartsAux_all_sep :
    ∀ s : GoStr, (∀ c ∈ s, isPascalSep c = true) → pascalPartsAux [] s = [] := by
  intro s
  induction s with
  | nil => intro _; rfl
  | cons a rest ih =>
    intro h
    rw [pascalPartsAux, if_pos (h a (by simp)), if_pos rfl]
    exact ih (fun c hc => h c (by simp [hc]))

theorem stripExt_subset (s : GoStr) : stripExt s ⊆ s := by
  unfold stripExt goTrimSuffix
  by_cases h : (goExt s).isSuffixOf s = true
  · rw [if_pos h]; exact List.take_subset _ _
  · rw [if_neg h]; exact fun x hx => hx

/-! ### Claim theorems -/

/-- C8: for every input sequence, the outputs of `resolveUniquePaths` and
`resolveUniqueVarNames` have exactly the length of the input, and the
element at each output index is the per-index resolution of the input
element at that same index, so input order is preserved. -/
theorem resolve_output_parallel (files : List FileInfo) (paths : List GoStr) (naming : GoStr) :
    (resolveUniquePaths files).length = files.length ∧
    (resolveUniqueVarNames paths naming).length = paths.length ∧
    (∀ i, i < files.length →
      (resolveUniquePaths files)[i]? = some (resolvePathAt files i)) ∧
    (∀ i, i < paths.length →
      (resolveUniqueVarNames paths naming)[i]? = some (resolveNameAt paths naming i)) := by
  refine ⟨?_, ?_, ?_, ?_⟩
  · unfold resolveUniquePaths
    rw [List.length_map, List.length_range]
  · unfold resolveUniqueVarNames
    rw [List.length_map, List.length_range]
  · intro i hi
    unfold resolveUniquePaths
    rw [List.getElem?_map, List.getElem?_range hi]
    rfl
  · intro i hi
    unfold resolveUniqueVarNames
    rw [List.getElem?_map, List.getElem?_range hi]
    rfl

/-- Witness for C8 at a concrete one-element input on both resolvers. -/
theorem resolve_output_parallel_witness :
    (resolveUniquePaths [⟨"a/x.txt".data, "x.txt".data⟩])[0]? =
      some (resolvePathAt [⟨"a/x.txt".data, "x.txt".data⟩] 0) ∧
    (resolveUniqueVarNames ["a.txt".data] ("pascal".data))[0]? =
      some (resolveNameAt ["a.txt".data] ("pascal".data) 0) :=
  ⟨(resolve_output_parallel [⟨"a/x.txt".data, "x.txt".data⟩] ["a.txt".data]
      ("pascal".data)).2.2.1 0 (by decide),
    (resolve_output_parallel [⟨"a/x.txt".data, "x.txt".data⟩] ["a.txt".data]
      ("pascal".data)).2.2.2 0 (by decide)⟩

/-- C9: the two resolvers are deterministic pure functions of their input:
two runs on identical input sequences, in identical order, produce
identical outputs. -/
theorem resolve_deterministic (filesA filesB : List FileInfo)
    (pathsA pathsB : List GoStr) (namingA namingB : GoStr)
    (h1 : filesA = filesB) (h2 : pathsA = pathsB) (h3 : namingA = namingB) :
    resolveUniquePaths filesA = resolveUniquePaths filesB ∧
    resolveUniqueVarNames pathsA namingA = resolveUniqueVarNames pathsB namingB := by
  subst h1
  subst h2
  subst h3
  exact ⟨rfl, rfl⟩

/-- Witness for C9 at a concrete input on both resolvers. -/
theorem resolve_deterministic_witness :
    resolveUniquePaths [⟨"a/x.txt".data, "x.txt".data⟩] =
      resolveUniquePaths [⟨"a/x.txt".data, "x.txt".data⟩] ∧
    resolveUniqueVarNames ["a.txt".data] snakeStr =
      resolveUniqueVarNames ["a.txt".data] snakeStr :=
  resolve_deterministic _ _ _ _ _ _ rfl rfl rfl

/-- C7: a reference whose `shortName` is shared by no other reference gets
exactly its `shortName` from `resolveUniquePaths`, and a path whose base
identifier is shared by no other path gets exactly that base identifier
from `resolveUniqueVarNames`. -/
theorem singleton_groups_trivial
    (files : List FileInfo) (i : Nat) (hi : i < files.length)
    (husn : ∀ j, j < files.length → j ≠ i →
      (files.getD j default).shortName ≠ (files.getD i default).shortName)
    (paths : List GoStr) (naming : GoStr) (k : Nat) (hk : k < paths.length)
    (hub : ∀ j, j < paths.length → j ≠ k →
      baseVarName naming (paths.getD j []) ≠ baseVarName naming (paths.getD k [])) :
    (resolveUniquePaths files).getD i [] = (files.getD i default).shortName ∧
    (resolveUniqueVarNames paths naming).getD k [] = baseVarName naming (paths.getD k []) := by
  constructor
  · rw [resolveUniquePaths_getD files i hi]
    unfold resolvePathAt
    have hgr : shortGroup files (files.getD i default).shortName = [i] := by
      unfold shortGroup
      apply filter_range_eq_singleton _ files.length i hi
      intro j hj
      constructor
      · intro hpj
        by_contra hji
        exact husn j hj hji (of_decide_eq_true hpj)
      · intro hji
        subst hji
        exact decide_eq_true rfl
    rw [hgr]
    rfl
  · rw [resolveUniqueVarNames_getD paths naming k hk]
    unfold resolveNameAt
    have hgr : baseGroup paths naming (baseVarName naming (paths.getD k [])) = [k] := by
      unfold baseGroup
      apply filter_range_eq_singleton _ paths.length k hk
      intro j hj
      constructor
      · intro hpj
        by_contra hjk
        exact hub j hj hjk (of_decide_eq_true hpj)
      · intro hjk
        subst hjk
        exact decide_eq_true rfl
    rw [hgr]
    rfl

/-- Witness for C7 at concrete inputs with collision-free short names and
collision-free base identifiers. -/
theorem singleton_groups_trivial_witness :
    (resolveUniquePaths [⟨"a/x.txt".data, "x.txt".data⟩, ⟨"b/y.txt".data, "y.txt".data⟩]).getD
        0 [] = "x.txt".data ∧
    (resolveUniqueVarNames ["m/config.json".data, "m/users.json".data]
        ("pascal".data)).getD 0 [] = "Config".data :=
  singleton_groups_trivial
    [⟨"a/x.txt".data, "x.txt".data⟩, ⟨"b/y.txt".data, "y.txt".data⟩] 0 (by decide)
    (by decide) ["m/config.json".data, "m/users.json".data] ("pascal".data) 0 (by decide)
    (by decide)

/-- C6 (code bug witness): on input paths
`["x/config.json", "x/config.yaml", "1.txt", "-"]` with pascal naming, the
generated variable names are `["Config", "Config", "1", ""]`: two names
collide, one begins with a digit, and one is empty, contradicting the
claimed invariant that generated names are non-empty, never digit-leading
and pairwise distinct. -/
theorem resolveUniqueVarNames_invalid_names :
    resolveUniqueVarNames
        ["x/config.json".data, "x/config.yaml".data, "1.txt".data, "-".data]
        ("pascal".data) =
      ["Config".data, "Config".data, "1".data, ([] : GoStr)] := by decide

/-- C5 counterexample: identifier synthesis cannot fail; on the
separator-only input "-" it returns the empty string under WordCase and
the non-empty string "_" under SeparatedCase, rather than raising any
EmptyIdentifier error. -/
theorem synthesis_no_failure_counterexample :
    toPascalCase ("-".data) = ([] : GoStr) ∧
    toGoVarName ("-".data) snakeStr = "_".data := by decide

/-- C5 (amended): synthesis is total: every separator-only input yields the
empty identifier under WordCase, while under SeparatedCase "-" yields "_"
and "." yields the empty string; no error value exists or is propagated. -/
theorem synthesis_separator_only_result :
    (∀ s : GoStr, (∀ c ∈ s, isPascalSep c = true) → toPascalCase s = []) ∧
    toGoVarName ("-".data) snakeStr = "_".data ∧
    toGoVarName (".".data) snakeStr = ([] : GoStr) := by
  refine ⟨?_, by decide, by decide⟩
  intro s hs
  unfold toPascalCase
  rw [pascalPartsAux_all_sep s hs]
  rfl

/-- Witness for C5 at the concrete separator-only input "-_./". -/
theorem synthesis_separator_only_result_witness :
    toPascalCase ("-_./".data) = ([] : GoStr) :=
  synthesis_separator_only_result.1 ("-_./".data) (by decide)

/-- C1: for a member of a `shortName` group of size at least two (whose
reference satisfies the FileReference invariant: non-empty slash-free
`shortName` that is a suffix of `sourcePath`), `resolveUniquePaths` returns
the rightmost-`d`-segment suffix of its `sourcePath` joined by `'/'`, where
`d` is the smallest depth from 1 up to the member's own segment count at
which that candidate differs from every other group member's same-depth
candidate; when no such depth exists the full `sourcePath` is returned
verbatim and residual collisions are left unresolved. -/
theorem resolveUniquePaths_minimal_unique_suffix
    (files : List FileInfo) (i : Nat) (f : FileInfo)
    (hi : i < files.length) (hf : files.getD i default = f)
    (hsn : f.shortName ≠ []) (hslash : '/' ∉ f.shortName)
    (hsuf : f.shortName <:+ f.sourcePath)
    (hgroup : 2 ≤ (shortGroup files f.shortName).length) :
    (∀ d, d ≤ numSegs f.sourcePath → 1 ≤ d → PathUniqueAt files i f d →
      (∀ e, e < d → 1 ≤ e → ¬ PathUniqueAt files i f e) →
      (resolveUniquePaths files).getD i [] = pathCandidate f.sourcePath d) ∧
    ((∀ d, d ≤ numSegs f.sourcePath → 1 ≤ d → ¬ PathUniqueAt files i f d) →
      (resolveUniquePaths files).getD i [] = f.sourcePath) := by
  have hlast : lastSeg f.sourcePath ≠ [] :=
    lastSeg_ne_of_suffix f.shortName f.sourcePath hsn hslash hsuf
  have hne : ¬ (shortGroup files f.shortName).length = 1 := by omega
  constructor
  · intro d hdle hd1 hu hmin
    rw [resolveUniquePaths_getD files i hi]
    unfold resolvePathAt
    rw [hf, if_neg hne]
    have hp : pathUniqueAtB files i f d = true := (pathUniqueAtB_iff files i f d).mpr hu
    have hmin2 : ∀ e, 1 ≤ e → e < d → pathUniqueAtB files i f e = false := by
      intro e he1 he2
      exact eq_false_of_ne_true
        (fun hc => hmin e he2 he1 ((pathUniqueAtB_iff files i f e).mp hc))
    have hfind := find?_range'_eq_some (pathUniqueAtB files i f) d 1
      (numSegs f.sourcePath) hd1 (by omega) hp hmin2
    rw [hfind]
    show (if pathCandidate f.sourcePath d = [] then f.sourcePath
        else pathCandidate f.sourcePath d) = pathCandidate f.sourcePath d
    rw [if_neg (pathCandidate_ne_nil f.sourcePath d hd1 hlast)]
  · intro hall
    rw [resolveUniquePaths_getD files i hi]
    unfold resolvePathAt
    rw [hf, if_neg hne]
    have hfind : (List.range' 1 (numSegs f.sourcePath)).find?
        (pathUniqueAtB files i f) = none := by
      rw [List.find?_eq_none]
      intro x hx hpx
      have hm := List.mem_range'_1.mp hx
      exact hall x (by omega) hm.1 ((pathUniqueAtB_iff files i f x).mp hpx)
    rw [hfind]

/-- Witness for C1: depth 2 resolves the group of "x.txt" in
`["a/x.txt", "b/x.txt"]`, and two fully identical references fall back to
the full source path. -/
theorem resolveUniquePaths_minimal_unique_suffix_witness :
    (resolveUniquePaths
        [⟨"a/x.txt".data, "x.txt".data⟩, ⟨"b/x.txt".data, "x.txt".data⟩]).getD 0 [] =
      pathCandidate ("a/x.txt".data) 2 ∧
    (resolveUniquePaths
        [⟨"x.txt".data, "x.txt".data⟩, ⟨"x.txt".data, "x.txt".data⟩]).getD 0 [] =
      "x.txt".data :=
  ⟨(resolveUniquePaths_minimal_unique_suffix
      [⟨"a/x.txt".data, "x.txt".data⟩, ⟨"b/x.txt".data, "x.txt".data⟩] 0
      ⟨"a/x.txt".data, "x.txt".data⟩ (by decide) (by decide) (by decide) (by decide)
      (by decide) (by decide)).1 2 (by decide) (by decide) (by decide) (by decide),
    (resolveUniquePaths_minimal_unique_suffix
      [⟨"x.txt".data, "x.txt".data⟩, ⟨"x.txt".data, "x.txt".data⟩] 0
      ⟨"x.txt".data, "x.txt".data⟩ (by decide) (by decide) (by decide) (by decide)
      (by decide) (by decide)).2 (by decide)⟩

/-- C2: for a member of a base-identifier group of size at least two,
`resolveUniqueVarNames` searches depths from 2 (never 1) up to the member's
segment count, at each depth takes the rightmost segments, strips the
extension from only the last segment and synthesizes an identifier under
the convention, returning the candidate of the first depth whose value
differs from every other group member's same-depth candidate; in particular
WordCase input `["a/config.json", "b/config.json", "c/config.json"]`
yields `["AConfig", "BConfig", "CConfig"]`. -/
theorem resolveUniqueVarNames_minimal_depth
    (paths : List GoStr) (naming : GoStr) (i : Nat) (p : GoStr)
    (hi : i < paths.length) (hp : paths.getD i [] = p)
    (hgroup : 2 ≤ (baseGroup paths naming (baseVarName naming p)).length) :
    (∀ d, d ≤ numSegs p → 2 ≤ d → NameUniqueAt paths naming i p d →
      (∀ e, e < d → 2 ≤ e → ¬ NameUniqueAt paths naming i p e) →
      (resolveUniqueVarNames paths naming).getD i [] = candidateName naming p d) ∧
    resolveUniqueVarNames
        ["a/config.json".data, "b/config.json".data, "c/config.json".data]
        ("pascal".data) =
      ["AConfig".data, "BConfig".data, "CConfig".data] := by
  constructor
  · intro d hdle hd2 hu hmin
    rw [resolveUniqueVarNames_getD paths naming i hi]
    unfold resolveNameAt
    rw [hp]
    rw [if_pos (show 1 < (baseGroup paths naming (baseVarName naming p)).length by omega)]
    have hns : 1 ≤ numSegs p := by
      unfold numSegs
      exact List.length_pos.mpr (splitChar_ne_nil '/' p)
    have hb : nameUniqueAtB paths naming i p d = true :=
      (nameUniqueAtB_iff paths naming i p d).mpr hu
    have hmin2 : ∀ e, 2 ≤ e → e < d → nameUniqueAtB paths naming i p e = false := by
      intro e he1 he2
      exact eq_false_of_ne_true
        (fun hc => hmin e he2 he1 ((nameUniqueAtB_iff paths naming i p e).mp hc))
    have hfind := find?_range'_eq_some (nameUniqueAtB paths naming i p) d 2
      (numSegs p - 1) hd2 (by omega) hb hmin2
    rw [hfind]
  · decide

/-- Witness for C2: member 0 of the example group resolves at depth 2. -/
theorem resolveUniqueVarNames_minimal_depth_witness :
    (resolveUniqueVarNames
        ["a/config.json".data, "b/config.json".data, "c/config.json".data]
        ("pascal".data)).getD 0 [] =
      candidateName ("pascal".data) ("a/config.json".data) 2 :=
  (resolveUniqueVarNames_minimal_depth
      ["a/config.json".data, "b/config.json".data, "c/config.json".data]
      ("pascal".data) 0 ("a/config.json".data) (by decide) (by decide) (by decide)).1
    2 (by decide) (by decide) (by decide) (by decide)

/-- C3 counterexample: on the input "a b" the code's WordCase synthesis
capitalizes the letter after the space inside the fragment (Go
`strings.Title` word semantics), giving "A B", while the claimed rule
(lowercase each fragment and capitalize its first letter only) gives
"A b". -/
theorem toPascalCase_spec_counterexample :
    toPascalCase ("a b".data) = "A B".data ∧
    wordCaseSpec ("a b".data) = "A b".data ∧
    toPascalCase ("a b".data) ≠ wordCaseSpec ("a b".data) := by decide

/-- C3 (amended): for every input whose runes are either one of the four
split separators or runes whose lowercase form is not a Go Title word
separator (in particular all ASCII letters and digits), WordCase synthesis
agrees with the claimed split, lowercase, capitalize-first, concatenate
rule; the claimed examples hold: "with-many-dashes.go" gives
"WithManyDashes" and "a/b/c" gives "ABC". -/
theorem toPascalCase_wordCase_agreement :
    (∀ s : GoStr,
      (∀ c ∈ s, isPascalSep c = true ∨ goIsSeparator (Char.toLower c) = false) →
      toPascalCase s = wordCaseSpec s) ∧
    toGoVarName ("with-many-dashes.go".data) ("pascal".data) = "WithManyDashes".data ∧
    toGoVarName ("a/b/c".data) ("pascal".data) = "ABC".data := by
  refine ⟨?_, by decide, by decide⟩
  intro s hs
  unfold toPascalCase wordCaseSpec
  rw [pascalPartsAux_eq s []]
  have hsimp : (match splitOnSeps isPascalSep s with
      | [] => ([] : List GoStr)
      | t :: ts => ([] ++ t) :: ts) = splitOnSeps isPascalSep s := by
    match hsp : splitOnSeps isPascalSep s with
    | [] => exact absurd hsp (splitOnSeps_ne_nil isPascalSep s)
    | t :: ts => simp
  rw [hsimp]
  congr 1
  apply List.map_congr_left
  intro frag hfrag
  have hfr : frag ∈ splitOnSeps isPascalSep s := (List.mem_filter.mp hfrag).1
  apply goTitle_eq_capFirst
  intro c hc
  rcases List.mem_map.mp hc with ⟨c0, hc0, rfl⟩
  have hmem : c0 ∈ s := splitOnSeps_subset isPascalSep s frag hfr c0 hc0
  have hnsep : isPascalSep c0 = false := splitOnSeps_not_sep isPascalSep s frag hfr c0 hc0
  rcases hs c0 hmem with h | h
  · rw [h] at hnsep
    cases hnsep
  · exact h

/-- Witness for C3 at the concrete input "mapping/session_tokens.json". -/
theorem toPascalCase_wordCase_agreement_witness :
    toPascalCase ("mapping/session_tokens.json".data) =
      wordCaseSpec ("mapping/session_tokens.json".data) :=
  toPascalCase_wordCase_agreement.1 ("mapping/session_tokens.json".data) (by decide)

/-- C4 counterexample: on the input "a/b" the code's SeparatedCase
synthesis applies Go `strings.Title`, which also capitalizes the letter
after the slash, giving "A/B", while the claimed rule (capitalize only the
first letter of the whole resulting string) gives "A/b". -/
theorem toGoVarName_snake_counterexample :
    toGoVarName ("a/b".data) snakeStr = "A/B".data ∧
    sepCaseSpec ("a/b".data) = "A/b".data ∧
    toGoVarName ("a/b".data) snakeStr ≠ sepCaseSpec ("a/b".data) := by decide

/-- C4 (amended): for every input whose runes are dashes, dots, or runes
that are not Go Title word separators (in particular ASCII letters, digits
and underscores), SeparatedCase synthesis strips the extension, replaces
dashes and dots by underscores and capitalizes only the first rune of the
whole result; the claimed examples hold: "my-file.txt" gives "My_file" and
"some.config.yaml" gives "Some_config". -/
theorem toGoVarName_sepCase_agreement :
    (∀ s : GoStr, (∀ c ∈ s, c = '-' ∨ c = '.' ∨ goIsSeparator c = false) →
      toGoVarName s snakeStr = sepCaseSpec s) ∧
    toGoVarName ("my-file.txt".data) snakeStr = "My_file".data ∧
    toGoVarName ("some.config.yaml".data) snakeStr = "Some_config".data := by
  refine ⟨?_, by decide, by decide⟩
  intro s hs
  unfold toGoVarName sepCaseSpec
  rw [if_pos rfl]
  have hmapeq : replaceAllChar '.' '_' (replaceAllChar '-' '_' (stripExt s)) =
      (stripExt s).map (fun c => if c = '-' then '_' else if c = '.' then '_' else c) := by
    unfold replaceAllChar
    rw [List.map_map]
    apply List.map_congr_left
    intro c _
    show (fun c => if c = '.' then '_' else c) (if c = '-' then '_' else c) =
      (if c = '-' then '_' else if c = '.' then '_' else c)
    by_cases h1 : c = '-'
    · subst h1; rfl
    · by_cases h2 : c = '.'
      · subst h2; rfl
      · simp [h1, h2]
  rw [hmapeq]
  apply goTitle_eq_capFirst
  intro c hc
  rcases List.mem_map.mp hc with ⟨c0, hc0, rfl⟩
  have hmem : c0 ∈ s := stripExt_subset s hc0
  show goIsSeparator (if c0 = '-' then '_' else if c0 = '.' then '_' else c0) = false
  by_cases h1 : c0 = '-'
  · subst h1; decide
  · by_cases h2 : c0 = '.'
    · subst h2; decide
    · rw [if_neg h1, if_neg h2]
      rcases hs c0 hmem with h | h | h
      · exact absurd h h1
      · exact absurd h h2
      · exact h

/-- Witness for C4 at the concrete input "file-name.v2.txt". -/
theorem toGoVarName_sepCase_agreement_witness :
    toGoVarName ("file-name.v2.txt".data) snakeStr =
      sepCaseSpec ("file-name.v2.txt".data) :=
  toGoVarName_sepCase_agreement.1 ("file-name.v2.txt".data) (by decide)

/-- C10 counterexample: the distinct paths "a/b/" and "a/b/." have
identical segment sequences once the final segment's extension is stripped
(both give the segments "a", "b", ""), yet `resolveUniqueVarNames` returns
"B" for the first and the empty name for the second, because
`filepath.Base` strips the trailing slash of "a/b/" and so the two base
identifiers differ; the claim as stated over every pair of paths is
therefore false. -/
theorem strippedSegs_equal_distinct_names :
    strippedSegs ("a/b/".data) = strippedSegs ("a/b/.".data) ∧
    resolveUniqueVarNames ["a/b/".data, "a/b/.".data] ("pascal".data) =
      ["B".data, ([] : GoStr)] ∧
    ("B".data : GoStr) ≠ ([] : GoStr) := by decide

/-- C10 (amended): for two distinct input paths whose `filepath.Base` is
their final slash-separated segment (no trailing slash) and whose segment
sequences coincide once the final segment's extension is stripped,
`resolveUniqueVarNames` returns the same identifier for both: the
extension is stripped at every depth, so no depth distinguishes them and
both keep the colliding base identifier. -/
theorem names_collide_on_stripped_equal
    (paths : List GoStr) (naming : GoStr) (i j : Nat)
    (hij : i ≠ j) (hi : i < paths.length) (hj : j < paths.length)
    (hbi : goBase (paths.getD i []) = lastSeg (paths.getD i []))
    (hbj : goBase (paths.getD j []) = lastSeg (paths.getD j []))
    (hseq : strippedSegs (paths.getD i []) = strippedSegs (paths.getD j [])) :
    (resolveUniqueVarNames paths naming).getD i [] =
      (resolveUniqueVarNames paths naming).getD j [] ∧
    (resolveUniqueVarNames paths naming).getD i [] =
      baseVarName naming (paths.getD i []) := by
  have hbase : baseVarName naming (paths.getD i []) = baseVarName naming (paths.getD j []) :=
    baseVarName_congr naming _ _ hseq hbi hbj
  have memi : i ∈ baseGroup paths naming (baseVarName naming (paths.getD i [])) :=
    List.mem_filter.mpr ⟨List.mem_range.mpr hi, decide_eq_true rfl⟩
  have memj : j ∈ baseGroup paths naming (baseVarName naming (paths.getD i [])) :=
    List.mem_filter.mpr ⟨List.mem_range.mpr hj, decide_eq_true hbase.symm⟩
  have hlen : 1 < (baseGroup paths naming (baseVarName naming (paths.getD i []))).length := by
    have := two_mem_le_length memi memj hij
    omega
  have houti : (resolveUniqueVarNames paths naming).getD i [] =
      baseVarName naming (paths.getD i []) := by
    rw [resolveUniqueVarNames_getD paths naming i hi]
    unfold resolveNameAt
    rw [if_pos hlen]
    have hfind : (List.range' 2 (numSegs (paths.getD i []) - 1)).find?
        (nameUniqueAtB paths naming i (paths.getD i [])) = none := by
      rw [List.find?_eq_none]
      intro d hd hpd
      have hm := List.mem_range'_1.mp hd
      have hP := (nameUniqueAtB_iff paths naming i (paths.getD i []) d).mp hpd
      have hc : candidateName naming (paths.getD j []) d =
          candidateName naming (paths.getD i []) d :=
        candidateName_congr naming _ _ hseq.symm d (by omega)
      exact (hP j hj (fun h => hij h.symm) hbase.symm) hc
    rw [hfind]
  have houtj : (resolveUniqueVarNames paths naming).getD j [] =
      baseVarName naming (paths.getD j []) := by
    rw [resolveUniqueVarNames_getD paths naming j hj]
    unfold resolveNameAt
    have hlenj : 1 < (baseGroup paths naming (baseVarName naming (paths.getD j []))).length := by
      rw [← hbase]
      exact hlen
    rw [if_pos hlenj]
    have hfind : (List.range' 2 (numSegs (paths.getD j []) - 1)).find?
        (nameUniqueAtB paths naming j (paths.getD j [])) = none := by
      rw [List.find?_eq_none]
      intro d hd hpd
      have hm := List.mem_range'_1.mp hd
      have hP := (nameUniqueAtB_iff paths naming j (paths.getD j []) d).mp hpd
      have hc : candidateName naming (paths.getD i []) d =
          candidateName naming (paths.getD j []) d :=
        candidateName_congr naming _ _ hseq d (by omega)
      exact (hP i hi hij hbase) hc
    rw [hfind]
  refine ⟨?_, houti⟩
  rw [houti, houtj, hbase]

/-- Witness for C10: "a/config.json" and "a/config.yaml" both keep the
colliding base identifier "Config". -/
theorem names_collide_on_stripped_equal_witness :
    (resolveUniqueVarNames ["a/config.json".data, "a/config.yaml".data]
        ("pascal".data)).getD 0 [] =
      (resolveUniqueVarNames ["a/config.json".data, "a/config.yaml".data]
        ("pascal".data)).getD 1 [] ∧
    (resolveUniqueVarNames ["a/config.json".data, "a/config.yaml".data]
        ("pascal".data)).getD 0 [] =
      baseVarName ("pascal".data)
        (["a/config.json".data, "a/config.yaml".data].getD 0 []) :=
  names_collide_on_stripped_equal ["a/config.json".data, "a/config.yaml".data]
    ("pascal".data) 0 1 (by decide) (by decide) (by decide) (by decide) (by decide)
    (by decide)
